import Mathlib

set_option maxHeartbeats 1000000

/-!
Verification development for an Ultimate Tic-Tac-Toe engine.

The game rule engine (bitboard representation) and the Monte Carlo tree
search engine are embedded shallowly: the TypeScript classes `Game` and
`MonteCarlo` become pure Lean functions over explicit state values.
JavaScript numbers holding 9-bit bitboards are modelled as `Nat` (all
values stay far below 2^31, so JS 32-bit bitwise semantics and `Nat`
bitwise semantics agree; the one place the source uses 32-bit complement,
`unsetBit`, is modelled with an explicit 32-bit mask).  Methods that throw
become `Except`-valued functions; methods that mutate `this.currentState`
become functions from state to state.
-/

namespace UltimateTTT

/-- The two players, mirroring the source union type of the engine. -/
inductive Player : Type where
  | X : Player
  | O : Player
deriving DecidableEq, Repr

/-- Outcome of a 3x3 grid: a winning player, a draw, or in progress (none). -/
inductive GameOutcome : Type where
  | X : GameOutcome
  | O : GameOutcome
  | draw : GameOutcome
  | none : GameOutcome
deriving DecidableEq, Repr

/-- `otherPlayer` from the source. -/
def otherPlayer : Player → Player
  | .X => .O
  | .O => .X

/-- Injection of a player into grid outcomes. -/
def Player.outcome : Player → GameOutcome
  | .X => GameOutcome.X
  | .O => GameOutcome.O

/-- `isPlayer` from the source: whether an extended tile is an actual player. -/
def isPlayer : GameOutcome → Bool
  | .X => true
  | .O => true
  | _ => false

/-- Coordinates, pairs of numbers as in the source. -/
abbrev Coordinate := Nat × Nat

/-- `coordinatesEqual` from the source. -/
def coordinatesEqual (a b : Coordinate) : Bool := a.1 == b.1 && a.2 == b.2

/-- `setBit` from the source: set the bit at local cell (x, y). -/
def setBit (bitboard x y : Nat) : Nat := bitboard ||| (1 <<< (x + y * 3))

/-- `unsetBit` from the source: `bitboard & ~(1 << index)` with the JS 32-bit
complement written as an explicit xor against the 32-bit all-ones mask. -/
def unsetBit (bitboard x y : Nat) : Nat :=
  bitboard &&& (4294967295 ^^^ (1 <<< (x + y * 3)))

/-- `getBit` from the source: 0 or 1, the bit at local cell (x, y). -/
def getBit (bitboard x y : Nat) : Nat := (bitboard >>> (x + y * 3)) &&& 1

/-- `isBitboardWinning` from the source: the eight winning line masks. -/
def isBitboardWinning (bitboard : Nat) : Bool :=
  (bitboard &&& 0b111000000 == 0b111000000) ||
  (bitboard &&& 0b000111000 == 0b000111000) ||
  (bitboard &&& 0b000000111 == 0b000000111) ||
  (bitboard &&& 0b100100100 == 0b100100100) ||
  (bitboard &&& 0b010010010 == 0b010010010) ||
  (bitboard &&& 0b001001001 == 0b001001001) ||
  (bitboard &&& 0b100010001 == 0b100010001) ||
  (bitboard &&& 0b001010100 == 0b001010100)

/-- `bitboardGridResult` from the source: outcome of one 3x3 grid given the
two 9-bit occupancy masks. -/
def bitboardGridResult (xBitboard yBitboard : Nat) : GameOutcome :=
  if isBitboardWinning xBitboard then .X
  else if isBitboardWinning yBitboard then .O
  else if xBitboard ||| yBitboard == 0b111111111 then .draw
  else .none

/-- The active subgrid constraint: a specific subgrid or the sentinel any. -/
inductive ActiveSubgrid : Type where
  | any : ActiveSubgrid
  | sub : Coordinate → ActiveSubgrid
deriving DecidableEq, Repr

/-- `Move` from the source: global coordinate, the player who makes it, and
the `currentSubgrid` field stored for undo. -/
structure Move : Type where
  coordinate : Coordinate
  player : Player
  currentSubgrid : Coordinate
deriving DecidableEq, Repr

/-- `GameState` from the source (bitboard variant): per-subgrid 9-bit masks
for each player (indexed by subgridX + subgridY * 3), the active subgrid,
the player to move, the completion flag, and the move history. -/
structure GameState : Type where
  aSubgridBitboard : List Nat
  bSubgridBitboard : List Nat
  activeSubgrid : ActiveSubgrid
  playerToMove : Player
  complete : Bool
  moves : List Move
deriving DecidableEq, Repr

/-- `initialGameState` from the source. -/
def initialGameState : GameState :=
  { aSubgridBitboard := [0, 0, 0, 0, 0, 0, 0, 0, 0]
    bSubgridBitboard := [0, 0, 0, 0, 0, 0, 0, 0, 0]
    activeSubgrid := .any
    playerToMove := .X
    complete := false
    moves := [] }

/-- `Game.checkWinSubgrid` from the source. -/
def checkWinSubgrid (s : GameState) (subgrid : Coordinate) : GameOutcome :=
  let idx := subgrid.1 + subgrid.2 * 3
  bitboardGridResult (s.aSubgridBitboard.getD idx 0) (s.bSubgridBitboard.getD idx 0)

/-- The nine loop coordinates, outer index first then inner, exactly the
iteration order of the `for x / for y` double loops in the source. -/
def coords3 : List (Nat × Nat) :=
  [(0, 0), (0, 1), (0, 2), (1, 0), (1, 1), (1, 2), (2, 0), (2, 1), (2, 2)]

/-- One step of the meta-board accumulation loop in `checkWinWholeBoard`:
set the bit for the subgrid in the accumulator board matching its outcome. -/
def metaStep (s : GameState) (acc : Nat × Nat × Nat) (c : Nat × Nat) : Nat × Nat × Nat :=
  match checkWinSubgrid s c with
  | .X => (setBit acc.1 c.1 c.2, acc.2.1, acc.2.2)
  | .O => (acc.1, setBit acc.2.1 c.1 c.2, acc.2.2)
  | .draw => (acc.1, acc.2.1, setBit acc.2.2 c.1 c.2)
  | .none => acc

/-- The three meta bitboards (X wins, O wins, neutral draws) accumulated by
the double loop of `Game.checkWinWholeBoard`. -/
def metaBoards (s : GameState) : Nat × Nat × Nat :=
  coords3.foldl (metaStep s) (0, 0, 0)

/-- `Game.checkWinWholeBoard` from the source. -/
def checkWinWholeBoard (s : GameState) : GameOutcome :=
  let boards := metaBoards s
  let playerResult := bitboardGridResult boards.1 boards.2.1
  if isPlayer playerResult then playerResult
  else if playerResult == .draw || (boards.1 ||| boards.2.1 ||| boards.2.2) == 0b111111111 then
    .draw
  else .none

/-- `Game.getTile` from the source: the occupant of a global coordinate. -/
def getTile (s : GameState) (coordinate : Coordinate) : Option Player :=
  let idx := coordinate.1 / 3 + (coordinate.2 / 3) * 3
  let xBitboard := s.aSubgridBitboard.getD idx 0
  let yBitboard := s.bSubgridBitboard.getD idx 0
  let x := coordinate.1 % 3
  let y := coordinate.2 % 3
  if getBit xBitboard x y != 0 then some .X
  else if getBit yBitboard x y != 0 then some .O
  else Option.none

/-- Errors thrown by `Game.doMove`: the occupied-cell error carries the
occupying player (the source interpolates it into the message). -/
inductive MoveError : Type where
  | occupiedCell : Player → MoveError
  | wrongSubgrid : MoveError
deriving DecidableEq, Repr

/-- The wrong-subgrid test of `doMove`: active subgrid is specific and does
not equal the subgrid of the move. -/
def activeMismatch (a : ActiveSubgrid) (subgrid : Coordinate) : Bool :=
  match a with
  | .any => false
  | .sub c => !coordinatesEqual c subgrid

/-- The first mutations of the success path of `Game.doMove`: push the
move onto the history and set the bit of the move for its player. -/
def placeMove (s : GameState) (m : Move) : GameState :=
  let subgridX := m.coordinate.1 / 3
  let subgridY := m.coordinate.2 / 3
  let offsetX := m.coordinate.1 % 3
  let offsetY := m.coordinate.2 % 3
  let idx := subgridX + subgridY * 3
  let xBitboard := s.aSubgridBitboard.getD idx 0
  let yBitboard := s.bSubgridBitboard.getD idx 0
  let s1 := { s with moves := s.moves ++ [m] }
  match m.player with
  | .X => { s1 with
            aSubgridBitboard := s1.aSubgridBitboard.set idx (setBit xBitboard offsetX offsetY) }
  | .O => { s1 with
            bSubgridBitboard := s1.bSubgridBitboard.set idx (setBit yBitboard offsetX offsetY) }

/-- The mutations the success path of `Game.doMove` performs, in source
order: history append and bit set (`placeMove`), active subgrid assignment
with the terminal-subgrid override of that one field, player flip,
completion recomputation. -/
def applyMoveState (s : GameState) (m : Move) : GameState :=
  let offsetX := m.coordinate.1 % 3
  let offsetY := m.coordinate.2 % 3
  let s2 := placeMove s m
  let s3 := { s2 with activeSubgrid := .sub (offsetX, offsetY) }
  let s4 :=
    { s3 with
      activeSubgrid :=
        if checkWinSubgrid s3 (offsetX, offsetY) != .none then ActiveSubgrid.any
        else s3.activeSubgrid }
  let s5 := { s4 with playerToMove := otherPlayer m.player }
  { s5 with complete := checkWinWholeBoard s5 != .none }

/-- `Game.doMove` from the source.  Throws become `Except.error`; both
throws happen before any mutation, so the error cases return no state and
the success case returns the fully mutated state. -/
def doMove (s : GameState) (m : Move) : Except MoveError GameState :=
  match getTile s m.coordinate with
  | some t => .error (.occupiedCell t)
  | Option.none =>
    if activeMismatch s.activeSubgrid (m.coordinate.1 / 3, m.coordinate.2 / 3) then
      .error .wrongSubgrid
    else .ok (applyMoveState s m)

/-- The `doMove` method as seen by a caller holding the mutable `Game`
object: the state after the call (unchanged when a throw occurs, since both
throws precede every mutation), the error if one was thrown, and the list
of `onMove` hook invocations (the hook fires once, after a successful
move, and never on a throw). -/
def doMoveMethod (s : GameState) (m : Move) : GameState × Option MoveError × List Move :=
  match doMove s m with
  | .ok s2 => (s2, Option.none, [m])
  | .error e => (s, some e, [])

/-- `Game.undoMove` from the source: pop the history, clear the bit of the
move, set the active subgrid to the `currentSubgrid` stored in the move,
give the turn back to the player of the move, and clear `complete`.  The
source performs no validation and cannot throw, so this is total. -/
def undoMove (s : GameState) (m : Move) : GameState :=
  let subgridX := m.coordinate.1 / 3
  let subgridY := m.coordinate.2 / 3
  let offsetX := m.coordinate.1 % 3
  let offsetY := m.coordinate.2 % 3
  let idx := subgridX + subgridY * 3
  let xBitboard := s.aSubgridBitboard.getD idx 0
  let yBitboard := s.bSubgridBitboard.getD idx 0
  let s1 := { s with moves := s.moves.dropLast }
  let s2 :=
    match m.player with
    | .X => { s1 with
              aSubgridBitboard := s1.aSubgridBitboard.set idx (unsetBit xBitboard offsetX offsetY) }
    | .O => { s1 with
              bSubgridBitboard := s1.bSubgridBitboard.set idx (unsetBit yBitboard offsetX offsetY) }
  { s2 with
    activeSubgrid := .sub m.currentSubgrid
    playerToMove := m.player
    complete := false }

/-- Concatenation of the lists an iteration body produces, used to embed
loops that push onto a result array. -/
def catMap (f : α → List β) : List α → List β
  | [] => []
  | a :: l => f a ++ catMap f l

/-- `Game.legalMovesSubgrid` from the source: every empty cell of the given
subgrid as a move of the player to move, with `currentSubgrid` set to the
subgrid that contains the move. -/
def legalMovesSubgrid (s : GameState) (subgrid : Coordinate) : List Move :=
  let idx := subgrid.1 + subgrid.2 * 3
  let xBitboard := s.aSubgridBitboard.getD idx 0
  let yBitboard := s.bSubgridBitboard.getD idx 0
  catMap
    (fun off =>
      if getBit xBitboard off.1 off.2 != 0 || getBit yBitboard off.1 off.2 != 0 then []
      else
        [{ coordinate := (subgrid.1 * 3 + off.1, subgrid.2 * 3 + off.2)
           player := s.playerToMove
           currentSubgrid := subgrid }])
    coords3

/-- `Game.legalMoves` from the source: empty when complete, otherwise the
empty cells of every subgrid that is in progress and allowed by the active
subgrid constraint, in loop order. -/
def legalMoves (s : GameState) : List Move :=
  if s.complete then []
  else
    catMap
      (fun c =>
        if checkWinSubgrid s c != .none then []
        else if
            (match s.activeSubgrid with
             | .any => true
             | .sub a => coordinatesEqual a c) then
          legalMovesSubgrid s c
        else [])
      coords3

/-!
The Monte Carlo tree search engine.

`MonteCarloNode` of the source holds a move, a snapshot `Game` state, the
counters `n_plays` and `n_wins`, a parent back-reference, and an ordered
map from the hash of each legal move to either an unexpanded slot or an
owned child node.  The map with its insertion order is embedded as the
ordered list type `MCChildren`; the keys of the source map are distinct
(one per legal move of the snapshot state), so positional access below is
the same as access by key.  Parent pointers are not stored: backpropagation
walks parent links from the updated node to the root, which is embedded by
performing the per-node counter increments on the unwind of the recursive
descent, over exactly the same set of nodes.

The source draws from `Math.random` when expanding and when simulating,
and descends by the argmax of the floating point UCB1 score when
selecting.  Both are modelled by an oracle, a stream of numbers consumed
left to right; every choice is taken modulo the number of alternatives.
The tree statistics claims proved below hold for every oracle, hence in
particular for the choices the source actually makes.
-/

mutual
/-- A node of the search tree: `play`, `state`, `n_plays`, `n_wins`, and
the ordered children map of the source node. -/
inductive MonteCarloNode : Type where
  | mk (play : Option Move) (state : GameState) (n_plays : Nat) (n_wins : Nat)
       (children : MCChildren) : MonteCarloNode

/-- The ordered children map: each entry keeps its move and is either still
unexpanded (node null in the source) or carries an owned child node. -/
inductive MCChildren : Type where
  | nil : MCChildren
  | unexpanded (mv : Move) (rest : MCChildren) : MCChildren
  | expanded (mv : Move) (child : MonteCarloNode) (rest : MCChildren) : MCChildren
end

namespace MonteCarloNode

def play : MonteCarloNode → Option Move
  | .mk p _ _ _ _ => p

def state : MonteCarloNode → GameState
  | .mk _ st _ _ _ => st

def n_plays : MonteCarloNode → Nat
  | .mk _ _ np _ _ => np

def n_wins : MonteCarloNode → Nat
  | .mk _ _ _ nw _ => nw

def children : MonteCarloNode → MCChildren
  | .mk _ _ _ _ cs => cs

end MonteCarloNode

namespace MCChildren

/-- Number of entries, as `children.size` in the source. -/
def size : MCChildren → Nat
  | .nil => 0
  | .unexpanded _ rest => size rest + 1
  | .expanded _ _ rest => size rest + 1

/-- `isLeaf` of the source node: no entries at all. -/
def isNilB : MCChildren → Bool
  | .nil => true
  | _ => false

/-- `isFullyExpanded` of the source node: every entry has a child node. -/
def fullyExpanded : MCChildren → Bool
  | .nil => true
  | .unexpanded _ _ => false
  | .expanded _ _ rest => fullyExpanded rest

/-- Number of unexpanded entries, the length of `unexpandedPlays()`. -/
def countUnexpanded : MCChildren → Nat
  | .nil => 0
  | .unexpanded _ rest => countUnexpanded rest + 1
  | .expanded _ _ rest => countUnexpanded rest

/-- The move of the j-th unexpanded entry, in map order: the element
`unexpandedPlays()[j]` of the source. -/
def getUnexpanded : MCChildren → Nat → Option Move
  | .nil, _ => Option.none
  | .unexpanded mv _, 0 => some mv
  | .unexpanded _ rest, j + 1 => getUnexpanded rest j
  | .expanded _ _ rest, j => getUnexpanded rest j

/-- Replace the j-th unexpanded entry by an expanded entry carrying the
given child node, as `children.set(moveHash(play), {play, node})` does for
the chosen unexpanded play (map keys are distinct, entry order is kept). -/
def expandAtUnexpanded : MCChildren → Nat → MonteCarloNode → MCChildren
  | .nil, _, _ => .nil
  | .unexpanded mv rest, 0, node => .expanded mv node rest
  | .unexpanded mv rest, j + 1, node => .unexpanded mv (expandAtUnexpanded rest j node)
  | .expanded mv c rest, j, node => .expanded mv c (expandAtUnexpanded rest j node)

/-- Sum of `n_plays` over the expanded children. -/
def sumVisits : MCChildren → Nat
  | .nil => 0
  | .unexpanded _ rest => sumVisits rest
  | .expanded _ c rest => c.n_plays + sumVisits rest

/-- Greatest `n_plays` over the expanded children (0 when none). -/
def maxVisits : MCChildren → Nat
  | .nil => 0
  | .unexpanded _ rest => maxVisits rest
  | .expanded _ c rest => max c.n_plays (maxVisits rest)

end MCChildren

/-- Children map of a fresh node: one unexpanded entry per legal move, in
enumeration order, as the `MonteCarloNode` constructor of the source. -/
def unexpandedChildren : List Move → MCChildren
  | [] => .nil
  | m :: l => .unexpanded m (unexpandedChildren l)

/-- `MonteCarlo.makeNode` for a state not yet in the tree: a dangling root
with null play, zero counters, and all legal moves unexpanded. -/
def makeNode (g : GameState) : MonteCarloNode :=
  .mk Option.none g 0 0 (unexpandedChildren (legalMoves g))

/-- The backpropagation increment of `n_wins` at a node: 1 when the
simulated winner is the player who made the move into the node, that is
the opponent of the player to move in the node state. -/
def winInc (st : GameState) (winner : GameOutcome) : Nat :=
  if (otherPlayer st.playerToMove).outcome = winner then 1 else 0

/-- `MonteCarlo.simulate` from the source: play uniformly random legal
moves from a copy of the state until the whole board is decided and return
the winner.  The source `while` loop cannot run more than once per empty
cell, so it is embedded with explicit fuel; exhausted fuel, an empty legal
move list, or a rejected move (none of which the source can reach from a
state produced by `doMove`) surface as errors rather than silent results. -/
def simulate : Nat → List Nat → GameState → Except String (GameOutcome × List Nat)
  | fuel, o, g =>
    match checkWinWholeBoard g with
    | .none =>
      match fuel with
      | 0 => .error "out of fuel"
      | fuel' + 1 =>
        let plays := legalMoves g
        match h : plays.length with
        | 0 => .error "no legal play in simulate"
        | _ + 1 =>
          let play := plays.get ⟨o.headD 0 % plays.length, Nat.mod_lt _ (by rw [h]; exact Nat.succ_pos _)⟩
          match doMove g play with
          | .ok g2 => simulate fuel' o.tail g2
          | .error _ => .error "rejected move in simulate"
    | w => .ok (w, o)

mutual
/-- One full select / expand / simulate / backpropagate cycle of the
`runSearch` loop, acting on the subtree rooted at the given node.  While
the node is fully expanded and not a leaf, selection descends into the
child the oracle picks (the UCB1 argmax of the source); otherwise, if the
node is not a leaf and its board is undecided, a random unexpanded play is
expanded, its new child simulated, and the counters of the new child are
incremented by its own backpropagation step; in every case the counters of
each node along the descent path are incremented on the unwind, exactly
the nodes the parent-pointer walk of `backpropagate` visits.  Returns the
updated subtree, the simulated winner, and the remaining oracle. -/
def searchCycle : List Nat → MonteCarloNode → Except String (MonteCarloNode × GameOutcome × List Nat)
  | o, .mk play st np nw cs =>
    if cs.fullyExpanded && !cs.isNilB then
      match searchCycleChildren o.tail (o.headD 0 % cs.size) cs with
      | .error e => .error e
      | .ok (cs2, w, o2) => .ok (.mk play st (np + 1) (nw + winInc st w) cs2, w, o2)
    else
      let w0 := checkWinWholeBoard st
      if !cs.isNilB && w0 == .none then
        match cs.getUnexpanded (o.headD 0 % cs.countUnexpanded) with
        | Option.none => .error "no unexpanded play"
        | some play1 =>
          match doMove st play1 with
          | .error _ => .error "rejected move in expand"
          | .ok childSt =>
            match simulate 81 o.tail childSt with
            | .error e => .error e
            | .ok (w, o2) =>
              let childNode : MonteCarloNode :=
                .mk (some play1) childSt 1 (winInc childSt w)
                  (unexpandedChildren (legalMoves childSt))
              .ok (.mk play st (np + 1) (nw + winInc st w)
                     (cs.expandAtUnexpanded (o.headD 0 % cs.countUnexpanded) childNode),
                   w, o2)
      else
        .ok (.mk play st (np + 1) (nw + winInc st w0) cs, w0, o)

/-- Selection descent through the children map: walk to the k-th entry and
recurse into its child.  A missing entry or a null child raises the errors
`childNode` of the source throws. -/
def searchCycleChildren : List Nat → Nat → MCChildren → Except String (MCChildren × GameOutcome × List Nat)
  | _, _, .nil => .error "Child not found"
  | _, 0, .unexpanded _ _ => .error "Child not expanded"
  | o, 0, .expanded mv c rest =>
    match searchCycle o c with
    | .error e => .error e
    | .ok (c2, w, o2) => .ok (.expanded mv c2 rest, w, o2)
  | o, k + 1, .unexpanded mv rest =>
    match searchCycleChildren o k rest with
    | .error e => .error e
    | .ok (rest2, w, o2) => .ok (.unexpanded mv rest2, w, o2)
  | o, k + 1, .expanded mv c rest =>
    match searchCycleChildren o k rest with
    | .error e => .error e
    | .ok (rest2, w, o2) => .ok (.expanded mv c rest2, w, o2)
end

/-- A completed `runSearch` call that performed k full cycles before the
deadline: the root is created fresh for the state, then the cycle runs k
times (the source checks the wall clock once per completed cycle). -/
def runSearchN : Nat → List Nat → MonteCarloNode → Except String MonteCarloNode
  | 0, _, t => .ok t
  | k + 1, o, t =>
    match searchCycle o t with
    | .error e => .error e
    | .ok (t2, _, o2) => runSearchN k o2 t2

/-- The scan of `MonteCarlo.bestPlay` over the children of the root node,
carrying the best candidate so far (the source starts from max equal to
minus infinity, so the first kept candidate always replaces the empty
accumulator).  The source calls `childNode(play)` before its zero-visit
skip, so an unexpanded entry raises the `childNode` error. -/
def bestPlayScan : MCChildren → Option (Move × Nat) → Except String Move
  | .nil, best =>
    match best with
    | some (mv, _) => .ok mv
    | Option.none => .error "No best play found. Was bestPlay called on a leaf node?"
  | .unexpanded _ _, _ => .error "Child not expanded"
  | .expanded mv c rest, best =>
    if c.n_plays == 0 then bestPlayScan rest best
    else
      match best with
      | Option.none => bestPlayScan rest (some (mv, c.n_plays))
      | some (bm, bn) =>
        if c.n_plays > bn then bestPlayScan rest (some (mv, c.n_plays))
        else bestPlayScan rest (some (bm, bn))

/-- `MonteCarlo.bestPlay` applied to the tree node of the given state. -/
def bestPlay (t : MonteCarloNode) : Except String Move :=
  bestPlayScan t.children Option.none

/-!  Bit-level facts about the 9-bit boards. -/

theorem getBit_eq_testBit (b x y : Nat) :
    getBit b x y = if b.testBit (x + y * 3) then 1 else 0 := by
  unfold getBit
  rw [Nat.and_one_is_mod, Nat.shiftRight_eq_div_pow, Nat.testBit_to_div_mod]
  rcases Nat.mod_two_eq_zero_or_one (b / 2 ^ (x + y * 3)) with h | h <;> simp [h]

theorem getBit_bne_zero (b x y : Nat) :
    (getBit b x y != 0) = b.testBit (x + y * 3) := by
  rw [getBit_eq_testBit]
  cases b.testBit (x + y * 3) <;> simp

theorem two_pow_testBit (i n : Nat) : ((2 : Nat) ^ i).testBit n = (n == i) := by
  by_cases h : i = n
  · subst h; simp [Nat.testBit_two_pow_self]
  · rw [Nat.testBit_two_pow_of_ne h]
    exact (beq_eq_false_iff_ne.mpr (Ne.symm h)).symm

theorem setBit_testBit (b x y i : Nat) :
    (setBit b x y).testBit i = (b.testBit i || i == x + y * 3) := by
  unfold setBit
  rw [Nat.testBit_lor, Nat.shiftLeft_eq, one_mul, two_pow_testBit]

theorem setBit_lt_512 {b : Nat} (x y : Nat) (hb : b < 512) (hxy : x + y * 3 < 9) :
    setBit b x y < 512 := by
  unfold setBit
  rw [Nat.shiftLeft_eq, one_mul]
  have h1 : (2 : Nat) ^ (x + y * 3) ≤ 2 ^ 8 := Nat.pow_le_pow_right (by norm_num) (by omega)
  have h2 : (512 : Nat) = 2 ^ 9 := by norm_num
  exact h2 ▸ Nat.or_lt_two_pow (h2 ▸ hb) (by omega)

theorem triple_mask_testBit (i j k n : Nat) :
    ((2 : Nat) ^ i ||| 2 ^ j ||| 2 ^ k).testBit n = (n == i || n == j || n == k) := by
  rw [Nat.testBit_lor, Nat.testBit_lor, two_pow_testBit, two_pow_testBit, two_pow_testBit]

theorem land_triple_mask (b m i j k : Nat) (hm : m = 2 ^ i ||| 2 ^ j ||| 2 ^ k) :
    b &&& m = m ↔
      b.testBit i = true ∧ b.testBit j = true ∧ b.testBit k = true := by
  subst hm
  constructor
  · intro h
    have key : ∀ n, (n == i || n == j || n == k) = true → b.testBit n = true := by
      intro n hn
      have hc : (b &&& ((2 : Nat) ^ i ||| 2 ^ j ||| 2 ^ k)).testBit n =
          ((2 : Nat) ^ i ||| 2 ^ j ||| 2 ^ k).testBit n := by rw [h]
      rw [Nat.testBit_land, triple_mask_testBit, hn, Bool.and_true] at hc
      exact hc
    exact ⟨key i (by simp), key j (by simp), key k (by simp)⟩
  · rintro ⟨h1, h2, h3⟩
    apply Nat.eq_of_testBit_eq
    intro n
    rw [Nat.testBit_land, triple_mask_testBit]
    by_cases hi : n = i
    · subst hi; simp [h1]
    · by_cases hj : n = j
      · subst hj; simp [h2]
      · by_cases hk : n = k
        · subst hk; simp [h3]
        · simp [hi, hj, hk]

theorem isBitboardWinning_iff (b : Nat) :
    isBitboardWinning b = true ↔
      ((b.testBit 6 = true ∧ b.testBit 7 = true ∧ b.testBit 8 = true) ∨
       (b.testBit 3 = true ∧ b.testBit 4 = true ∧ b.testBit 5 = true) ∨
       (b.testBit 0 = true ∧ b.testBit 1 = true ∧ b.testBit 2 = true) ∨
       (b.testBit 2 = true ∧ b.testBit 5 = true ∧ b.testBit 8 = true) ∨
       (b.testBit 1 = true ∧ b.testBit 4 = true ∧ b.testBit 7 = true) ∨
       (b.testBit 0 = true ∧ b.testBit 3 = true ∧ b.testBit 6 = true) ∨
       (b.testBit 0 = true ∧ b.testBit 4 = true ∧ b.testBit 8 = true) ∨
       (b.testBit 2 = true ∧ b.testBit 4 = true ∧ b.testBit 6 = true)) := by
  unfold isBitboardWinning
  simp only [Bool.or_eq_true, beq_iff_eq]
  rw [land_triple_mask b 448 6 7 8 rfl,
      land_triple_mask b 56 3 4 5 rfl,
      land_triple_mask b 7 0 1 2 rfl,
      land_triple_mask b 292 2 5 8 rfl,
      land_triple_mask b 146 1 4 7 rfl,
      land_triple_mask b 73 0 3 6 rfl,
      land_triple_mask b 273 0 4 8 rfl,
      land_triple_mask b 84 2 4 6 rfl]
  simp only [or_assoc]

theorem eq_511_iff_testBit {b : Nat} (hb : b < 512) :
    b = 511 ↔ ∀ i, i < 9 → b.testBit i = true := by
  constructor
  · rintro rfl i hi
    interval_cases i <;> decide
  · intro h
    apply Nat.eq_of_testBit_eq
    intro i
    by_cases hi : i < 9
    · rw [h i hi]
      interval_cases i <;> decide
    · have h9 : (512 : Nat) ≤ 2 ^ i := by
        calc (512 : Nat) = 2 ^ 9 := by norm_num
        _ ≤ 2 ^ i := Nat.pow_le_pow_right (by norm_num) (by omega)
      rw [Nat.testBit_eq_false_of_lt (by omega),
          Nat.testBit_eq_false_of_lt (show 511 < 2 ^ i by omega)]

/-- Evaluation lemmas for boolean equality on closed outcomes. -/
@[simp] theorem beqXX : (GameOutcome.X == GameOutcome.X) = true := rfl

@[simp] theorem beqOX : (GameOutcome.O == GameOutcome.X) = false := rfl

@[simp] theorem beqDrawX : (GameOutcome.draw == GameOutcome.X) = false := rfl

@[simp] theorem beqNoneX : (GameOutcome.none == GameOutcome.X) = false := rfl

@[simp] theorem beqXO : (GameOutcome.X == GameOutcome.O) = false := rfl

@[simp] theorem beqOO : (GameOutcome.O == GameOutcome.O) = true := rfl

@[simp] theorem beqDrawO : (GameOutcome.draw == GameOutcome.O) = false := rfl

@[simp] theorem beqNoneO : (GameOutcome.none == GameOutcome.O) = false := rfl

@[simp] theorem beqXDraw : (GameOutcome.X == GameOutcome.draw) = false := rfl

@[simp] theorem beqODraw : (GameOutcome.O == GameOutcome.draw) = false := rfl

@[simp] theorem beqDrawDraw : (GameOutcome.draw == GameOutcome.draw) = true := rfl

@[simp] theorem beqNoneDraw : (GameOutcome.none == GameOutcome.draw) = false := rfl

@[simp] theorem beqXNone : (GameOutcome.X == GameOutcome.none) = false := rfl

@[simp] theorem beqONone : (GameOutcome.O == GameOutcome.none) = false := rfl

@[simp] theorem beqDrawNone : (GameOutcome.draw == GameOutcome.none) = false := rfl

@[simp] theorem beqNoneNone : (GameOutcome.none == GameOutcome.none) = true := rfl

/-! Characterization of the three meta bitboards built by
`checkWinWholeBoard`: the bit of a subgrid is set in the X board, the O
board, or the neutral board exactly when the subgrid outcome is a win for
X, a win for O, or a draw. -/

theorem metaFold_fst_testBit (s : GameState) (l : List (Nat × Nat)) (acc : Nat × Nat × Nat) (i : Nat) :
    (l.foldl (metaStep s) acc).1.testBit i =
      (acc.1.testBit i ||
        l.any fun c => (checkWinSubgrid s c == GameOutcome.X) && (i == c.1 + c.2 * 3)) := by
  induction l generalizing acc with
  | nil => simp
  | cons c l ih =>
    rw [List.foldl_cons, ih]
    unfold metaStep
    cases h : checkWinSubgrid s c <;>
      simp [h, setBit_testBit, Bool.or_assoc]

theorem metaFold_snd_testBit (s : GameState) (l : List (Nat × Nat)) (acc : Nat × Nat × Nat) (i : Nat) :
    (l.foldl (metaStep s) acc).2.1.testBit i =
      (acc.2.1.testBit i ||
        l.any fun c => (checkWinSubgrid s c == GameOutcome.O) && (i == c.1 + c.2 * 3)) := by
  induction l generalizing acc with
  | nil => simp
  | cons c l ih =>
    rw [List.foldl_cons, ih]
    unfold metaStep
    cases h : checkWinSubgrid s c <;>
      simp [h, setBit_testBit, Bool.or_assoc]

theorem metaFold_trd_testBit (s : GameState) (l : List (Nat × Nat)) (acc : Nat × Nat × Nat) (i : Nat) :
    (l.foldl (metaStep s) acc).2.2.testBit i =
      (acc.2.2.testBit i ||
        l.any fun c => (checkWinSubgrid s c == GameOutcome.draw) && (i == c.1 + c.2 * 3)) := by
  induction l generalizing acc with
  | nil => simp
  | cons c l ih =>
    rw [List.foldl_cons, ih]
    unfold metaStep
    cases h : checkWinSubgrid s c <;>
      simp [h, setBit_testBit, Bool.or_assoc]

theorem metaFold_lt (s : GameState) (l : List (Nat × Nat)) (acc : Nat × Nat × Nat)
    (h1 : acc.1 < 512) (h2 : acc.2.1 < 512) (h3 : acc.2.2 < 512)
    (hl : ∀ c ∈ l, c.1 + c.2 * 3 < 9) :
    (l.foldl (metaStep s) acc).1 < 512 ∧
    (l.foldl (metaStep s) acc).2.1 < 512 ∧
    (l.foldl (metaStep s) acc).2.2 < 512 := by
  induction l generalizing acc with
  | nil => exact ⟨h1, h2, h3⟩
  | cons c l ih =>
    rw [List.foldl_cons]
    have hc : c.1 + c.2 * 3 < 9 := hl c (List.mem_cons_self c l)
    have hl2 : ∀ d ∈ l, d.1 + d.2 * 3 < 9 := fun d hd => hl d (List.mem_cons_of_mem c hd)
    unfold metaStep
    cases h : checkWinSubgrid s c
    · exact ih _ (setBit_lt_512 _ _ h1 hc) h2 h3 hl2
    · exact ih _ h1 (setBit_lt_512 _ _ h2 hc) h3 hl2
    · exact ih _ h1 h2 (setBit_lt_512 _ _ h3 hc) hl2
    · exact ih _ h1 h2 h3 hl2

theorem metaBoards_fst_testBit (s : GameState) (x y : Nat) (hx : x < 3) (hy : y < 3) :
    (metaBoards s).1.testBit (x + y * 3) = (checkWinSubgrid s (x, y) == GameOutcome.X) := by
  unfold metaBoards
  rw [metaFold_fst_testBit]
  simp only [Nat.zero_testBit, Bool.false_or]
  interval_cases x <;> interval_cases y <;> simp [coords3]

theorem metaBoards_snd_testBit (s : GameState) (x y : Nat) (hx : x < 3) (hy : y < 3) :
    (metaBoards s).2.1.testBit (x + y * 3) = (checkWinSubgrid s (x, y) == GameOutcome.O) := by
  unfold metaBoards
  rw [metaFold_snd_testBit]
  simp only [Nat.zero_testBit, Bool.false_or]
  interval_cases x <;> interval_cases y <;> simp [coords3]

theorem metaBoards_trd_testBit (s : GameState) (x y : Nat) (hx : x < 3) (hy : y < 3) :
    (metaBoards s).2.2.testBit (x + y * 3) = (checkWinSubgrid s (x, y) == GameOutcome.draw) := by
  unfold metaBoards
  rw [metaFold_trd_testBit]
  simp only [Nat.zero_testBit, Bool.false_or]
  interval_cases x <;> interval_cases y <;> simp [coords3]

theorem metaBoards_lt (s : GameState) :
    (metaBoards s).1 < 512 ∧ (metaBoards s).2.1 < 512 ∧ (metaBoards s).2.2 < 512 := by
  unfold metaBoards
  exact metaFold_lt s coords3 (0, 0, 0) (by norm_num) (by norm_num) (by norm_num)
    (by decide)

theorem mem_coords3 (x y : Nat) (hx : x < 3) (hy : y < 3) : (x, y) ∈ coords3 := by
  interval_cases x <;> interval_cases y <;> simp [coords3]

theorem coords3_lt : ∀ c ∈ coords3, c.1 < 3 ∧ c.2 < 3 := by decide

theorem testBit_false_of_ge {b i : Nat} (hb : b < 512) (hi : 9 ≤ i) : b.testBit i = false := by
  have h9 : (512 : Nat) ≤ 2 ^ i := by
    calc (512 : Nat) = 2 ^ 9 := by norm_num
    _ ≤ 2 ^ i := Nat.pow_le_pow_right (by norm_num) hi
  exact Nat.testBit_eq_false_of_lt (by omega)

theorem lor_511_eq {m : Nat} (hm : m < 512) : 511 ||| m = 511 := by
  apply Nat.eq_of_testBit_eq
  intro i
  rw [Nat.testBit_lor]
  by_cases hi : i < 9
  · have h1 : (511 : Nat).testBit i = true := by interval_cases i <;> decide
    simp [h1]
  · rw [testBit_false_of_ge (by norm_num) (by omega), testBit_false_of_ge hm (by omega)]
    rfl

/-!  The specification description of the whole-board outcome. -/

/-- The eight winning triples of a 3x3 grid as cell coordinates, the cell
form of the eight masks of `isBitboardWinning` under idx = x + y * 3. -/
def winningTriples : List (Coordinate × Coordinate × Coordinate) :=
  [((0, 2), (1, 2), (2, 2)), ((0, 1), (1, 1), (2, 1)), ((0, 0), (1, 0), (2, 0)),
   ((2, 0), (2, 1), (2, 2)), ((1, 0), (1, 1), (1, 2)), ((0, 0), (0, 1), (0, 2)),
   ((0, 0), (1, 1), (2, 2)), ((2, 0), (1, 1), (0, 2))]

/-- Stated from the specification words: the player owns a winning
meta-triple, a triple of subgrids whose outcomes are all a win for that
player (drawn subgrids count as neutral, owned by neither player). -/
def ownsMetaTriple (s : GameState) (p : Player) : Bool :=
  winningTriples.any fun t =>
    (checkWinSubgrid s t.1 == p.outcome) &&
    (checkWinSubgrid s t.2.1 == p.outcome) &&
    (checkWinSubgrid s t.2.2 == p.outcome)

/-- Stated from the specification words: every subgrid outcome is
non-in-progress. -/
def allSubgridsDecided (s : GameState) : Bool :=
  coords3.all fun c => checkWinSubgrid s c != GameOutcome.none

/-- The whole-board outcome as the specification words it: the winning
triple test on the 3x3 meta-board of subgrid outcomes (a player wins when
that player owns a winning meta-triple, the shared test trying X first);
when there is no meta winner, drawn exactly when every subgrid outcome is
non-in-progress, and in progress otherwise. -/
def specBoardOutcome (s : GameState) : GameOutcome :=
  if ownsMetaTriple s .X then .X
  else if ownsMetaTriple s .O then .O
  else if allSubgridsDecided s then .draw
  else .none

theorem isWinning_metaX (s : GameState) :
    isBitboardWinning (metaBoards s).1 = ownsMetaTriple s Player.X := by
  apply Bool.eq_iff_iff.mpr
  rw [isBitboardWinning_iff]
  have h : ∀ x y, x < 3 → y < 3 →
      (metaBoards s).1.testBit (x + y * 3) = (checkWinSubgrid s (x, y) == GameOutcome.X) :=
    fun x y hx hy => metaBoards_fst_testBit s x y hx hy
  have h0 : (metaBoards s).1.testBit 0 = (checkWinSubgrid s (0, 0) == GameOutcome.X) :=
    h 0 0 (by norm_num) (by norm_num)
  have h1 : (metaBoards s).1.testBit 1 = (checkWinSubgrid s (1, 0) == GameOutcome.X) :=
    h 1 0 (by norm_num) (by norm_num)
  have h2 : (metaBoards s).1.testBit 2 = (checkWinSubgrid s (2, 0) == GameOutcome.X) :=
    h 2 0 (by norm_num) (by norm_num)
  have h3 : (metaBoards s).1.testBit 3 = (checkWinSubgrid s (0, 1) == GameOutcome.X) :=
    h 0 1 (by norm_num) (by norm_num)
  have h4 : (metaBoards s).1.testBit 4 = (checkWinSubgrid s (1, 1) == GameOutcome.X) :=
    h 1 1 (by norm_num) (by norm_num)
  have h5 : (metaBoards s).1.testBit 5 = (checkWinSubgrid s (2, 1) == GameOutcome.X) :=
    h 2 1 (by norm_num) (by norm_num)
  have h6 : (metaBoards s).1.testBit 6 = (checkWinSubgrid s (0, 2) == GameOutcome.X) :=
    h 0 2 (by norm_num) (by norm_num)
  have h7 : (metaBoards s).1.testBit 7 = (checkWinSubgrid s (1, 2) == GameOutcome.X) :=
    h 1 2 (by norm_num) (by norm_num)
  have h8 : (metaBoards s).1.testBit 8 = (checkWinSubgrid s (2, 2) == GameOutcome.X) :=
    h 2 2 (by norm_num) (by norm_num)
  rw [h0, h1, h2, h3, h4, h5, h6, h7, h8]
  simp [ownsMetaTriple, winningTriples, Player.outcome, List.any_cons, Bool.and_eq_true,
    beq_iff_eq, or_assoc, and_assoc]

theorem isWinning_metaO (s : GameState) :
    isBitboardWinning (metaBoards s).2.1 = ownsMetaTriple s Player.O := by
  apply Bool.eq_iff_iff.mpr
  rw [isBitboardWinning_iff]
  have h : ∀ x y, x < 3 → y < 3 →
      (metaBoards s).2.1.testBit (x + y * 3) = (checkWinSubgrid s (x, y) == GameOutcome.O) :=
    fun x y hx hy => metaBoards_snd_testBit s x y hx hy
  have h0 : (metaBoards s).2.1.testBit 0 = (checkWinSubgrid s (0, 0) == GameOutcome.O) :=
    h 0 0 (by norm_num) (by norm_num)
  have h1 : (metaBoards s).2.1.testBit 1 = (checkWinSubgrid s (1, 0) == GameOutcome.O) :=
    h 1 0 (by norm_num) (by norm_num)
  have h2 : (metaBoards s).2.1.testBit 2 = (checkWinSubgrid s (2, 0) == GameOutcome.O) :=
    h 2 0 (by norm_num) (by norm_num)
  have h3 : (metaBoards s).2.1.testBit 3 = (checkWinSubgrid s (0, 1) == GameOutcome.O) :=
    h 0 1 (by norm_num) (by norm_num)
  have h4 : (metaBoards s).2.1.testBit 4 = (checkWinSubgrid s (1, 1) == GameOutcome.O) :=
    h 1 1 (by norm_num) (by norm_num)
  have h5 : (metaBoards s).2.1.testBit 5 = (checkWinSubgrid s (2, 1) == GameOutcome.O) :=
    h 2 1 (by norm_num) (by norm_num)
  have h6 : (metaBoards s).2.1.testBit 6 = (checkWinSubgrid s (0, 2) == GameOutcome.O) :=
    h 0 2 (by norm_num) (by norm_num)
  have h7 : (metaBoards s).2.1.testBit 7 = (checkWinSubgrid s (1, 2) == GameOutcome.O) :=
    h 1 2 (by norm_num) (by norm_num)
  have h8 : (metaBoards s).2.1.testBit 8 = (checkWinSubgrid s (2, 2) == GameOutcome.O) :=
    h 2 2 (by norm_num) (by norm_num)
  rw [h0, h1, h2, h3, h4, h5, h6, h7, h8]
  simp [ownsMetaTriple, winningTriples, Player.outcome, List.any_cons, Bool.and_eq_true,
    beq_iff_eq, or_assoc, and_assoc]

theorem union_testBit_cell (s : GameState) (x y : Nat) (hx : x < 3) (hy : y < 3) :
    ((metaBoards s).1 ||| (metaBoards s).2.1 ||| (metaBoards s).2.2).testBit (x + y * 3) =
      (checkWinSubgrid s (x, y) != GameOutcome.none) := by
  rw [Nat.testBit_lor, Nat.testBit_lor, metaBoards_fst_testBit s x y hx hy,
    metaBoards_snd_testBit s x y hx hy, metaBoards_trd_testBit s x y hx hy]
  cases checkWinSubgrid s (x, y) <;> rfl

theorem union_eq_511_iff (s : GameState) :
    ((metaBoards s).1 ||| (metaBoards s).2.1 ||| (metaBoards s).2.2 = 511) ↔
      allSubgridsDecided s = true := by
  obtain ⟨hb1, hb2, hb3⟩ := metaBoards_lt s
  have hu : (metaBoards s).1 ||| (metaBoards s).2.1 ||| (metaBoards s).2.2 < 512 := by
    have h9 : (512 : Nat) = 2 ^ 9 := by norm_num
    exact h9 ▸ Nat.or_lt_two_pow (Nat.or_lt_two_pow (h9 ▸ hb1) (h9 ▸ hb2)) (h9 ▸ hb3)
  rw [eq_511_iff_testBit hu]
  constructor
  · intro h
    rw [allSubgridsDecided, List.all_eq_true]
    intro c hc
    obtain ⟨hc1, hc2⟩ := coords3_lt c hc
    have := union_testBit_cell s c.1 c.2 hc1 hc2
    rw [h (c.1 + c.2 * 3) (by omega)] at this
    exact this.symm
  · intro h i hi
    have hix : i % 3 < 3 := Nat.mod_lt _ (by norm_num)
    have hiy : i / 3 < 3 := by omega
    have hii : i = i % 3 + (i / 3) * 3 := by omega
    rw [hii, union_testBit_cell s (i % 3) (i / 3) hix hiy]
    exact List.all_eq_true.mp h (i % 3, i / 3) (mem_coords3 _ _ hix hiy)

/-- The bitboard implementation of the whole-board outcome agrees with the
specification description on every state. -/
theorem checkWinWholeBoard_eq_spec (s : GameState) :
    checkWinWholeBoard s = specBoardOutcome s := by
  obtain ⟨hb1, hb2, hb3⟩ := metaBoards_lt s
  simp only [checkWinWholeBoard, specBoardOutcome, bitboardGridResult,
    isWinning_metaX, isWinning_metaO]
  cases hX : ownsMetaTriple s Player.X
  · cases hO : ownsMetaTriple s Player.O
    · by_cases h2 : (metaBoards s).1 ||| (metaBoards s).2.1 = 511
      · have h3 : (metaBoards s).1 ||| (metaBoards s).2.1 ||| (metaBoards s).2.2 = 511 := by
          rw [h2, lor_511_eq hb3]
        have hdec : allSubgridsDecided s = true := (union_eq_511_iff s).mp h3
        simp [hX, hO, h2, hdec, isPlayer]
      · by_cases h3 : (metaBoards s).1 ||| (metaBoards s).2.1 ||| (metaBoards s).2.2 = 511
        · have hdec : allSubgridsDecided s = true := (union_eq_511_iff s).mp h3
          simp [hX, hO, h2, h3, hdec, isPlayer, beq_iff_eq]
        · have hdec : allSubgridsDecided s = false := by
            rcases Bool.eq_false_or_eq_true (allSubgridsDecided s) with h | h
            · exact absurd ((union_eq_511_iff s).mpr h) h3
            · exact h
          simp [hX, hO, h2, h3, hdec, isPlayer, beq_iff_eq]
    · simp [hX, hO, isPlayer]
  · simp [hX, isPlayer]

/-!  Reachable states and the invariant legal play preserves. -/

theorem getD_lt_512 {l : List Nat} (h : ∀ b ∈ l, b < 512) (i : Nat) : l.getD i 0 < 512 := by
  rw [List.getD_eq_getElem?_getD]
  cases hg : l[i]? with
  | none => simp
  | some x => simpa using h x (List.getElem?_mem hg)

theorem checkWinSubgrid_congr {s t : GameState}
    (ha : s.aSubgridBitboard = t.aSubgridBitboard)
    (hb : s.bSubgridBitboard = t.bSubgridBitboard) (c : Coordinate) :
    checkWinSubgrid s c = checkWinSubgrid t c := by
  unfold checkWinSubgrid
  rw [ha, hb]

theorem checkWinWholeBoard_congr {s t : GameState}
    (ha : s.aSubgridBitboard = t.aSubgridBitboard)
    (hb : s.bSubgridBitboard = t.bSubgridBitboard) :
    checkWinWholeBoard s = checkWinWholeBoard t := by
  have hstep : metaStep s = metaStep t := by
    funext acc c
    unfold metaStep
    rw [checkWinSubgrid_congr ha hb]
  unfold checkWinWholeBoard metaBoards
  rw [hstep]

theorem placeMove_moves (s : GameState) (m : Move) :
    (placeMove s m).moves = s.moves ++ [m] := by
  unfold placeMove
  split <;> rfl

theorem placeMove_boards_X (s : GameState) (m : Move) (hp : m.player = Player.X) :
    (placeMove s m).aSubgridBitboard =
      s.aSubgridBitboard.set (m.coordinate.1 / 3 + m.coordinate.2 / 3 * 3)
        (setBit (s.aSubgridBitboard.getD (m.coordinate.1 / 3 + m.coordinate.2 / 3 * 3) 0)
          (m.coordinate.1 % 3) (m.coordinate.2 % 3)) ∧
    (placeMove s m).bSubgridBitboard = s.bSubgridBitboard := by
  unfold placeMove
  rw [hp]
  exact ⟨rfl, rfl⟩

theorem placeMove_boards_O (s : GameState) (m : Move) (hp : m.player = Player.O) :
    (placeMove s m).bSubgridBitboard =
      s.bSubgridBitboard.set (m.coordinate.1 / 3 + m.coordinate.2 / 3 * 3)
        (setBit (s.bSubgridBitboard.getD (m.coordinate.1 / 3 + m.coordinate.2 / 3 * 3) 0)
          (m.coordinate.1 % 3) (m.coordinate.2 % 3)) ∧
    (placeMove s m).aSubgridBitboard = s.aSubgridBitboard := by
  unfold placeMove
  rw [hp]
  exact ⟨rfl, rfl⟩

theorem applyMoveState_moves (s : GameState) (m : Move) :
    (applyMoveState s m).moves = s.moves ++ [m] :=
  placeMove_moves s m

theorem applyMoveState_playerToMove (s : GameState) (m : Move) :
    (applyMoveState s m).playerToMove = otherPlayer m.player := rfl

theorem applyMoveState_boards (s : GameState) (m : Move) :
    (applyMoveState s m).aSubgridBitboard = (placeMove s m).aSubgridBitboard ∧
    (applyMoveState s m).bSubgridBitboard = (placeMove s m).bSubgridBitboard :=
  ⟨rfl, rfl⟩

theorem applyMoveState_complete (s : GameState) (m : Move) :
    (applyMoveState s m).complete =
      (checkWinWholeBoard (applyMoveState s m) != GameOutcome.none) :=
  congrArg (fun g => g != GameOutcome.none) (checkWinWholeBoard_congr rfl rfl)

theorem applyMoveState_active (s : GameState) (m : Move) :
    (applyMoveState s m).activeSubgrid = ActiveSubgrid.any ∨
    ((applyMoveState s m).activeSubgrid =
        ActiveSubgrid.sub (m.coordinate.1 % 3, m.coordinate.2 % 3) ∧
      checkWinSubgrid (applyMoveState s m) (m.coordinate.1 % 3, m.coordinate.2 % 3) =
        GameOutcome.none) := by
  by_cases h :
      (checkWinSubgrid
          { placeMove s m with
            activeSubgrid := ActiveSubgrid.sub (m.coordinate.1 % 3, m.coordinate.2 % 3) }
          (m.coordinate.1 % 3, m.coordinate.2 % 3) != GameOutcome.none) = true
  · left
    show (if (checkWinSubgrid _ _ != GameOutcome.none) = true then ActiveSubgrid.any
      else ActiveSubgrid.sub (m.coordinate.1 % 3, m.coordinate.2 % 3)) = ActiveSubgrid.any
    rw [if_pos h]
  · right
    constructor
    · show (if (checkWinSubgrid _ _ != GameOutcome.none) = true then ActiveSubgrid.any
        else ActiveSubgrid.sub (m.coordinate.1 % 3, m.coordinate.2 % 3)) =
          ActiveSubgrid.sub (m.coordinate.1 % 3, m.coordinate.2 % 3)
      rw [if_neg h]
    · have h2 : checkWinSubgrid
          { placeMove s m with
            activeSubgrid := ActiveSubgrid.sub (m.coordinate.1 % 3, m.coordinate.2 % 3) }
          (m.coordinate.1 % 3, m.coordinate.2 % 3) = GameOutcome.none := by
        simpa using h
      exact h2

theorem doMove_ok_cases {s : GameState} {m : Move} {s2 : GameState}
    (h : doMove s m = .ok s2) :
    getTile s m.coordinate = Option.none ∧
    activeMismatch s.activeSubgrid (m.coordinate.1 / 3, m.coordinate.2 / 3) = false ∧
    s2 = applyMoveState s m := by
  unfold doMove at h
  split at h
  · exact absurd h (by simp)
  case _ hg =>
    split at h
    · exact absurd h (by simp)
    case _ hmis =>
      exact ⟨hg, Bool.of_not_eq_true hmis, (Except.ok.injEq _ _ |>.mp h).symm⟩

theorem doMove_eq_ok {s : GameState} {m : Move}
    (ht : getTile s m.coordinate = Option.none)
    (ha : activeMismatch s.activeSubgrid (m.coordinate.1 / 3, m.coordinate.2 / 3) = false) :
    doMove s m = .ok (applyMoveState s m) := by
  unfold doMove
  rw [ht, ha]
  rfl

/-- The invariant every reachable state satisfies: 9-bit bitboards, a
completion flag that agrees with the computed whole-board outcome, and an
active subgrid that is the sentinel or an in-range subgrid still in
progress. -/
def StateInv (s : GameState) : Prop :=
  (∀ b ∈ s.aSubgridBitboard, b < 512) ∧
  (∀ b ∈ s.bSubgridBitboard, b < 512) ∧
  s.complete = (checkWinWholeBoard s != GameOutcome.none) ∧
  (∀ c, s.activeSubgrid = ActiveSubgrid.sub c →
    c.1 < 3 ∧ c.2 < 3 ∧ checkWinSubgrid s c = GameOutcome.none)

/-- States reachable from the initial state through legal play. -/
inductive Reachable : GameState → Prop where
  | init : Reachable initialGameState
  | step {s s2 : GameState} {m : Move} : Reachable s → m ∈ legalMoves s →
      doMove s m = .ok s2 → Reachable s2

theorem initial_stateInv : StateInv initialGameState := by
  refine ⟨by decide, by decide, by decide, ?_⟩
  intro c h
  simp [initialGameState] at h

theorem doMove_ok_stateInv {s : GameState} {m : Move} {s2 : GameState}
    (hinv : StateInv s) (h : doMove s m = .ok s2) : StateInv s2 := by
  obtain ⟨hb1, hb2, _, _⟩ := hinv
  obtain ⟨_, _, hs2⟩ := doMove_ok_cases h
  subst hs2
  have hidx : m.coordinate.1 % 3 + m.coordinate.2 % 3 * 3 < 9 := by
    have := Nat.mod_lt m.coordinate.1 (show 0 < 3 by norm_num)
    have := Nat.mod_lt m.coordinate.2 (show 0 < 3 by norm_num)
    omega
  obtain ⟨hba, hbb⟩ := applyMoveState_boards s m
  refine ⟨?_, ?_, applyMoveState_complete s m, ?_⟩
  · rw [hba]
    cases hp : m.player
    · obtain ⟨ha, _⟩ := placeMove_boards_X s m hp
      rw [ha]
      intro b hbmem
      rcases List.mem_or_eq_of_mem_set hbmem with hmem | hbeq
      · exact hb1 b hmem
      · exact hbeq ▸ setBit_lt_512 _ _ (getD_lt_512 hb1 _) hidx
    · obtain ⟨_, ha⟩ := placeMove_boards_O s m hp
      rw [ha]
      exact hb1
  · rw [hbb]
    cases hp : m.player
    · obtain ⟨_, hb⟩ := placeMove_boards_X s m hp
      rw [hb]
      exact hb2
    · obtain ⟨hb, _⟩ := placeMove_boards_O s m hp
      rw [hb]
      intro b hbmem
      rcases List.mem_or_eq_of_mem_set hbmem with hmem | hbeq
      · exact hb2 b hmem
      · exact hbeq ▸ setBit_lt_512 _ _ (getD_lt_512 hb2 _) hidx
  · intro c hc
    rcases applyMoveState_active s m with ha | ⟨ha, hprog⟩
    · rw [ha] at hc
      exact absurd hc (by simp)
    · rw [ha] at hc
      have hceq : c = (m.coordinate.1 % 3, m.coordinate.2 % 3) := by
        cases hc
        rfl
      subst hceq
      exact ⟨Nat.mod_lt _ (by norm_num), Nat.mod_lt _ (by norm_num), hprog⟩

theorem reachable_stateInv {s : GameState} (h : Reachable s) : StateInv s := by
  induction h with
  | init => exact initial_stateInv
  | step _ _ hdo ih => exact doMove_ok_stateInv ih hdo

/-!  The legal move list. -/

theorem mem_catMap {α β : Type} {f : α → List β} {l : List α} {b : β} :
    b ∈ catMap f l ↔ ∃ a ∈ l, b ∈ f a := by
  induction l with
  | nil => simp [catMap]
  | cons a l ih => simp [catMap, ih]

theorem catMap_ne_nil {α β : Type} {f : α → List β} {l : List α} {a : α}
    (ha : a ∈ l) (hf : f a ≠ []) : catMap f l ≠ [] := by
  induction l with
  | nil => cases ha
  | cons c l ih =>
    simp only [catMap, ne_eq, List.append_eq_nil]
    rcases List.mem_cons.mp ha with rfl | hmem
    · exact fun hc => hf hc.1
    · intro hc
      exact (ih hmem) hc.2

theorem legalMovesSubgrid_ne_nil {s : GameState} {c : Coordinate}
    (hba : ∀ b ∈ s.aSubgridBitboard, b < 512) (hbb : ∀ b ∈ s.bSubgridBitboard, b < 512)
    (hprog : checkWinSubgrid s c = GameOutcome.none) :
    legalMovesSubgrid s c ≠ [] := by
  have hxlt : s.aSubgridBitboard.getD (c.1 + c.2 * 3) 0 < 512 := getD_lt_512 hba _
  have hylt : s.bSubgridBitboard.getD (c.1 + c.2 * 3) 0 < 512 := getD_lt_512 hbb _
  have hulil : s.aSubgridBitboard.getD (c.1 + c.2 * 3) 0 |||
      s.bSubgridBitboard.getD (c.1 + c.2 * 3) 0 < 512 := by
    have h9 : (512 : Nat) = 2 ^ 9 := by norm_num
    exact h9 ▸ Nat.or_lt_two_pow (h9 ▸ hxlt) (h9 ▸ hylt)
  have hne : s.aSubgridBitboard.getD (c.1 + c.2 * 3) 0 |||
      s.bSubgridBitboard.getD (c.1 + c.2 * 3) 0 ≠ 511 := by
    intro hfull
    have hres : bitboardGridResult (s.aSubgridBitboard.getD (c.1 + c.2 * 3) 0)
        (s.bSubgridBitboard.getD (c.1 + c.2 * 3) 0) = GameOutcome.none := hprog
    unfold bitboardGridResult at hres
    split at hres
    · exact absurd hres (by simp)
    · split at hres
      · exact absurd hres (by simp)
      · split at hres
        · exact absurd hres (by simp)
        case _ hcond =>
          refine hcond ?_
          rw [hfull]
          rfl
  have hbit : ∃ i, i < 9 ∧
      (s.aSubgridBitboard.getD (c.1 + c.2 * 3) 0 |||
        s.bSubgridBitboard.getD (c.1 + c.2 * 3) 0).testBit i = false := by
    by_contra hall
    push_neg at hall
    exact hne ((eq_511_iff_testBit hulil).mpr
      (fun i hi => Bool.not_eq_false _ |>.mp (hall i hi)))
  obtain ⟨i, hi, hbit⟩ := hbit
  rw [Nat.testBit_lor] at hbit
  have hxbit : (s.aSubgridBitboard.getD (c.1 + c.2 * 3) 0).testBit i = false := by
    cases hx : (s.aSubgridBitboard.getD (c.1 + c.2 * 3) 0).testBit i
    · rfl
    · rw [hx] at hbit
      simp at hbit
  have hybit : (s.bSubgridBitboard.getD (c.1 + c.2 * 3) 0).testBit i = false := by
    cases hy : (s.bSubgridBitboard.getD (c.1 + c.2 * 3) 0).testBit i
    · rfl
    · rw [hy] at hbit
      simp at hbit
  unfold legalMovesSubgrid
  apply catMap_ne_nil (mem_coords3 (i % 3) (i / 3) (Nat.mod_lt _ (by norm_num)) (by omega))
  have hidx : i % 3 + i / 3 * 3 = i := by omega
  rw [getBit_bne_zero, getBit_bne_zero, hidx, hxbit, hybit]
  simp

theorem legalMoves_ne_nil {s : GameState} (hinv : StateInv s) (hc : s.complete = false) :
    legalMoves s ≠ [] := by
  obtain ⟨hb1, hb2, hcomp, hact⟩ := hinv
  have hnone : checkWinWholeBoard s = GameOutcome.none := by
    rw [hc] at hcomp
    exact bne_eq_false_iff_eq.mp hcomp.symm
  unfold legalMoves
  rw [hc]
  simp only [Bool.false_eq_true, if_false]
  cases hacts : s.activeSubgrid with
  | sub a =>
    obtain ⟨ha1, ha2, ha3⟩ := hact a hacts
    have hmem : a ∈ coords3 := by
      have := mem_coords3 a.1 a.2 ha1 ha2
      simpa using this
    apply catMap_ne_nil hmem
    rw [ha3]
    simp only [bne_self_eq_false, Bool.false_eq_true, if_false]
    simpa [coordinatesEqual] using legalMovesSubgrid_ne_nil hb1 hb2 ha3
  | any =>
    have hspec := (checkWinWholeBoard_eq_spec s).symm.trans hnone
    have hdec : allSubgridsDecided s = false := by
      unfold specBoardOutcome at hspec
      split at hspec
      · exact absurd hspec (by simp)
      · split at hspec
        · exact absurd hspec (by simp)
        · split at hspec
          · exact absurd hspec (by simp)
          case _ hcond => exact Bool.of_not_eq_true hcond
    obtain ⟨c, hcmem, hcfalse⟩ := List.all_eq_false.mp hdec
    have hcnone : checkWinSubgrid s c = GameOutcome.none := by
      rcases hgo : checkWinSubgrid s c <;> rw [hgo] at hcfalse <;> first | rfl | simp at hcfalse
    apply catMap_ne_nil hcmem
    rw [hcnone]
    simp only [bne_self_eq_false, Bool.false_eq_true, if_false]
    simpa using legalMovesSubgrid_ne_nil hb1 hb2 hcnone

theorem mem_legalMovesSubgrid {s : GameState} {c : Coordinate} {m : Move}
    (h : m ∈ legalMovesSubgrid s c) :
    ∃ off ∈ coords3,
      m = { coordinate := (c.1 * 3 + off.1, c.2 * 3 + off.2)
            player := s.playerToMove
            currentSubgrid := c } ∧
      getBit (s.aSubgridBitboard.getD (c.1 + c.2 * 3) 0) off.1 off.2 = 0 ∧
      getBit (s.bSubgridBitboard.getD (c.1 + c.2 * 3) 0) off.1 off.2 = 0 := by
  unfold legalMovesSubgrid at h
  rw [mem_catMap] at h
  obtain ⟨off, hoff, hmem⟩ := h
  refine ⟨off, hoff, ?_⟩
  by_cases hcond :
      (getBit (s.aSubgridBitboard.getD (c.1 + c.2 * 3) 0) off.1 off.2 != 0 ||
        getBit (s.bSubgridBitboard.getD (c.1 + c.2 * 3) 0) off.1 off.2 != 0) = true
  · rw [if_pos hcond] at hmem
    cases hmem
  · rw [if_neg hcond] at hmem
    have hcond2 := Bool.of_not_eq_true hcond
    rw [Bool.or_eq_false_iff] at hcond2
    refine ⟨List.mem_singleton.mp hmem, ?_, ?_⟩
    · exact bne_eq_false_iff_eq.mp hcond2.1
    · exact bne_eq_false_iff_eq.mp hcond2.2

/-- Every move the move generator produces passes every check of `doMove`:
its cell is empty, its subgrid agrees with the active subgrid constraint,
its player is the player to move, and `doMove` accepts it. -/
theorem legalMoves_sound {s : GameState} {m : Move} (h : m ∈ legalMoves s) :
    getTile s m.coordinate = Option.none ∧
    activeMismatch s.activeSubgrid (m.coordinate.1 / 3, m.coordinate.2 / 3) = false ∧
    m.player = s.playerToMove ∧
    doMove s m = Except.ok (applyMoveState s m) := by
  unfold legalMoves at h
  by_cases hc : s.complete = true
  · rw [if_pos hc] at h
    cases h
  · rw [if_neg hc] at h
    rw [mem_catMap] at h
    obtain ⟨c, hcmem, hbody⟩ := h
    obtain ⟨hc1, hc2⟩ := coords3_lt c hcmem
    by_cases hprog : (checkWinSubgrid s c != GameOutcome.none) = true
    · rw [if_pos hprog] at hbody
      cases hbody
    · rw [if_neg hprog] at hbody
      by_cases hmatch :
          (match s.activeSubgrid with
           | ActiveSubgrid.any => true
           | ActiveSubgrid.sub a => coordinatesEqual a c) = true
      · rw [if_pos hmatch] at hbody
        obtain ⟨off, hoffmem, hmeq, hxa, hya⟩ := mem_legalMovesSubgrid hbody
        obtain ⟨ho1, ho2⟩ := coords3_lt off hoffmem
        subst hmeq
        have hdx : (c.1 * 3 + off.1) / 3 = c.1 := by omega
        have hdy : (c.2 * 3 + off.2) / 3 = c.2 := by omega
        have hmx : (c.1 * 3 + off.1) % 3 = off.1 := by omega
        have hmy : (c.2 * 3 + off.2) % 3 = off.2 := by omega
        have htile : getTile s (c.1 * 3 + off.1, c.2 * 3 + off.2) = Option.none := by
          unfold getTile
          dsimp only
          rw [hdx, hdy, hmx, hmy, hxa, hya]
          simp
        have hmis : activeMismatch s.activeSubgrid
            ((c.1 * 3 + off.1) / 3, (c.2 * 3 + off.2) / 3) = false := by
          rw [hdx, hdy]
          cases hacts : s.activeSubgrid with
          | any => rfl
          | sub a =>
            rw [hacts] at hmatch
            have h2 : coordinatesEqual a c = true := hmatch
            unfold activeMismatch
            simp [h2]
        exact ⟨htile, hmis, rfl, doMove_eq_ok htile hmis⟩
      · rw [if_neg hmatch] at hbody
        cases hbody

/-!  Statistics invariants of the search tree.

`nodeOkB` is the inductive invariant: at every node below the root, the
win counter never exceeds the visit counter, and the visit counter is at
least one more than the sum of the visit counters of the expanded
children (the creation backpropagation plus one visit per backpropagation
through a child).  The root satisfies only the counter inequality
(`treeOkB`): its visits equal the number of completed cycles, which is
the plain sum of its children visits.  `nodeClaimB` and `treeClaimB` are
the claim-shaped consequences, with the most-visited child in place of
the sum. -/

mutual
def nodeOkB : MonteCarloNode → Bool
  | .mk _ _ np nw cs => decide (nw ≤ np) && decide (cs.sumVisits + 1 ≤ np) && childrenOkB cs

def childrenOkB : MCChildren → Bool
  | .nil => true
  | .unexpanded _ rest => childrenOkB rest
  | .expanded _ c rest => nodeOkB c && childrenOkB rest
end

def treeOkB : MonteCarloNode → Bool
  | .mk _ _ np nw cs => decide (nw ≤ np) && childrenOkB cs

mutual
def nodeClaimB : MonteCarloNode → Bool
  | .mk _ _ np nw cs =>
    decide (nw ≤ np) && (cs.isNilB || decide (cs.maxVisits + 1 ≤ np)) && childrenClaimB cs

def childrenClaimB : MCChildren → Bool
  | .nil => true
  | .unexpanded _ rest => childrenClaimB rest
  | .expanded _ c rest => nodeClaimB c && childrenClaimB rest
end

/-- Every node of the tree satisfies wins below visits, and every node
except the root also satisfies the most-visited-child inequality. -/
def treeClaimB : MonteCarloNode → Bool
  | .mk _ _ np nw cs => decide (nw ≤ np) && childrenClaimB cs

theorem winInc_le_one (st : GameState) (w : GameOutcome) : winInc st w ≤ 1 := by
  unfold winInc
  split <;> omega

theorem childrenOkB_unexpanded (l : List Move) :
    childrenOkB (unexpandedChildren l) = true := by
  induction l with
  | nil => rfl
  | cons m l ih => simpa [unexpandedChildren, childrenOkB] using ih

theorem sumVisits_unexpanded (l : List Move) :
    (unexpandedChildren l).sumVisits = 0 := by
  induction l with
  | nil => rfl
  | cons m l ih => simpa [unexpandedChildren, MCChildren.sumVisits] using ih

theorem sumVisits_expandAt : (cs : MCChildren) → (j : Nat) → (n : MonteCarloNode) →
    (cs.expandAtUnexpanded j n).sumVisits ≤ cs.sumVisits + n.n_plays
  | .nil, _, _ => by
    simp [MCChildren.expandAtUnexpanded, MCChildren.sumVisits]
  | .unexpanded mv rest, 0, n => by
    simp [MCChildren.expandAtUnexpanded, MCChildren.sumVisits]
    omega
  | .unexpanded mv rest, j + 1, n => by
    have := sumVisits_expandAt rest j n
    simpa [MCChildren.expandAtUnexpanded, MCChildren.sumVisits] using this
  | .expanded mv c rest, j, n => by
    have := sumVisits_expandAt rest j n
    simp [MCChildren.expandAtUnexpanded, MCChildren.sumVisits]
    omega

theorem childrenOkB_expandAt : (cs : MCChildren) → (j : Nat) → (n : MonteCarloNode) →
    childrenOkB cs = true → nodeOkB n = true →
    childrenOkB (cs.expandAtUnexpanded j n) = true
  | .nil, _, _, h, _ => h
  | .unexpanded mv rest, 0, n, h, hn => by
    simpa [MCChildren.expandAtUnexpanded, childrenOkB, hn] using h
  | .unexpanded mv rest, j + 1, n, h, hn => by
    simpa [MCChildren.expandAtUnexpanded, childrenOkB] using
      childrenOkB_expandAt rest j n (by simpa [childrenOkB] using h) hn
  | .expanded mv c rest, j, n, h, hn => by
    rw [childrenOkB] at h
    rw [Bool.and_eq_true] at h
    simpa [MCChildren.expandAtUnexpanded, childrenOkB, h.1] using
      childrenOkB_expandAt rest j n h.2 hn

theorem maxVisits_le_sumVisits : (cs : MCChildren) → cs.maxVisits ≤ cs.sumVisits
  | .nil => Nat.le_refl 0
  | .unexpanded _ rest => maxVisits_le_sumVisits rest
  | .expanded _ c rest => by
    have := maxVisits_le_sumVisits rest
    simp [MCChildren.maxVisits, MCChildren.sumVisits]
    omega

mutual
theorem nodeOkB_claim : (t : MonteCarloNode) → nodeOkB t = true → nodeClaimB t = true
  | .mk p st np nw cs, h => by
    rw [nodeOkB] at h
    rw [Bool.and_eq_true, Bool.and_eq_true] at h
    obtain ⟨⟨h1, h2⟩, h3⟩ := h
    rw [nodeClaimB, Bool.and_eq_true, Bool.and_eq_true]
    refine ⟨⟨h1, ?_⟩, childrenOkB_claim cs h3⟩
    rw [Bool.or_eq_true]
    right
    rw [decide_eq_true_eq] at h2 ⊢
    have := maxVisits_le_sumVisits cs
    omega

theorem childrenOkB_claim : (cs : MCChildren) → childrenOkB cs = true → childrenClaimB cs = true
  | .nil, _ => rfl
  | .unexpanded mv rest, h => childrenOkB_claim rest h
  | .expanded mv c rest, h => by
    rw [childrenOkB, Bool.and_eq_true] at h
    rw [childrenClaimB, Bool.and_eq_true]
    exact ⟨nodeOkB_claim c h.1, childrenOkB_claim rest h.2⟩
end

theorem treeOkB_claim (t : MonteCarloNode) (h : treeOkB t = true) : treeClaimB t = true := by
  match t with
  | .mk p st np nw cs =>
    rw [treeOkB, Bool.and_eq_true] at h
    rw [treeClaimB, Bool.and_eq_true]
    exact ⟨h.1, childrenOkB_claim cs h.2⟩

theorem makeNode_treeOk (g : GameState) : treeOkB (makeNode g) = true := by
  rw [makeNode, treeOkB, Bool.and_eq_true]
  exact ⟨by decide, childrenOkB_unexpanded _⟩


mutual
theorem searchCycle_nodeOk (o : List Nat) (t : MonteCarloNode) (t2 : MonteCarloNode)
    (w : GameOutcome) (o2 : List Nat) (h : searchCycle o t = .ok (t2, w, o2))
    (hok : nodeOkB t = true) :
    nodeOkB t2 = true ∧ t2.n_plays = t.n_plays + 1 := by
  match t with
  | .mk p st np nw cs =>
    rw [nodeOkB, Bool.and_eq_true, Bool.and_eq_true, decide_eq_true_eq, decide_eq_true_eq] at hok
    obtain ⟨⟨hw, hs⟩, hcs⟩ := hok
    rw [searchCycle] at h
    by_cases hfe : (cs.fullyExpanded && !cs.isNilB) = true
    · rw [if_pos hfe] at h
      cases hcall : searchCycleChildren o.tail (o.headD 0 % cs.size) cs with
      | error e =>
        simp only [hcall] at h
        exact Except.noConfusion h
      | ok r =>
        obtain ⟨cs2, w2, o3⟩ := r
        simp only [hcall, Except.ok.injEq, Prod.mk.injEq] at h
        obtain ⟨h1, h2, h3⟩ := h
        subst h1
        subst h2
        subst h3
        obtain ⟨hcs2, hsum2⟩ := searchCycleChildren_ok _ _ _ _ _ _ hcall hcs
        have hwi := winInc_le_one st w2
        refine ⟨?_, rfl⟩
        rw [nodeOkB, Bool.and_eq_true, Bool.and_eq_true, decide_eq_true_eq, decide_eq_true_eq]
        exact ⟨⟨by omega, by omega⟩, hcs2⟩
    · rw [if_neg hfe] at h
      by_cases hex : (!cs.isNilB && checkWinWholeBoard st == GameOutcome.none) = true
      · rw [if_pos hex] at h
        cases hu : cs.getUnexpanded (o.headD 0 % cs.countUnexpanded) with
        | none =>
          simp only [hu] at h
          exact Except.noConfusion h
        | some play1 =>
          cases hdm : doMove st play1 with
          | error e =>
            simp only [hu, hdm] at h
            exact Except.noConfusion h
          | ok childSt =>
            cases hsim : simulate 81 o.tail childSt with
            | error e =>
              simp only [hu, hdm, hsim] at h
              exact Except.noConfusion h
            | ok r =>
              obtain ⟨w2, o3⟩ := r
              simp only [hu, hdm, hsim, Except.ok.injEq, Prod.mk.injEq] at h
              obtain ⟨h1, h2, h3⟩ := h
              subst h1
              subst h2
              subst h3
              have hwi := winInc_le_one st w2
              have hchildOk : ∀ wa, nodeOkB (.mk (some play1) childSt 1 (winInc childSt wa)
                  (unexpandedChildren (legalMoves childSt))) = true := by
                intro wa
                rw [nodeOkB, Bool.and_eq_true, Bool.and_eq_true, decide_eq_true_eq,
                  decide_eq_true_eq]
                refine ⟨⟨winInc_le_one childSt wa, ?_⟩, childrenOkB_unexpanded _⟩
                rw [sumVisits_unexpanded]
              have hsum := fun wa => sumVisits_expandAt cs (o.headD 0 % cs.countUnexpanded)
                (.mk (some play1) childSt 1 (winInc childSt wa)
                  (unexpandedChildren (legalMoves childSt)))
              refine ⟨?_, rfl⟩
              rw [nodeOkB, Bool.and_eq_true, Bool.and_eq_true, decide_eq_true_eq,
                decide_eq_true_eq]
              refine ⟨⟨by omega, ?_⟩, childrenOkB_expandAt _ _ _ hcs (hchildOk w2)⟩
              have h1n : (MonteCarloNode.mk (some play1) childSt 1 (winInc childSt w2)
                  (unexpandedChildren (legalMoves childSt))).n_plays = 1 := rfl
              have hsum2 := hsum w2
              omega
      · rw [if_neg hex] at h
        simp only [Except.ok.injEq, Prod.mk.injEq] at h
        obtain ⟨h1, h2, h3⟩ := h
        subst h1
        subst h2
        subst h3
        have hwi := winInc_le_one st (checkWinWholeBoard st)
        refine ⟨?_, rfl⟩
        rw [nodeOkB, Bool.and_eq_true, Bool.and_eq_true, decide_eq_true_eq, decide_eq_true_eq]
        exact ⟨⟨by omega, by omega⟩, hcs⟩

theorem searchCycleChildren_ok (o : List Nat) (k : Nat) (cs : MCChildren) (cs2 : MCChildren)
    (w : GameOutcome) (o2 : List Nat) (h : searchCycleChildren o k cs = .ok (cs2, w, o2))
    (hok : childrenOkB cs = true) :
    childrenOkB cs2 = true ∧ cs2.sumVisits = cs.sumVisits + 1 := by
  match k, cs with
  | _, .nil =>
    rw [searchCycleChildren] at h
    cases h
  | 0, .unexpanded mv rest =>
    rw [searchCycleChildren] at h
    cases h
  | 0, .expanded mv c rest =>
    rw [childrenOkB, Bool.and_eq_true] at hok
    rw [searchCycleChildren] at h
    cases hcall : searchCycle o c with
    | error e =>
      simp only [hcall] at h
      exact Except.noConfusion h
    | ok r =>
      obtain ⟨c2, w2, o3⟩ := r
      simp only [hcall, Except.ok.injEq, Prod.mk.injEq] at h
      obtain ⟨h1, h2, h3⟩ := h
      subst h1
      subst h2
      subst h3
      obtain ⟨hc2, hnp⟩ := searchCycle_nodeOk _ _ _ _ _ hcall hok.1
      constructor
      · rw [childrenOkB, Bool.and_eq_true]
        exact ⟨hc2, hok.2⟩
      · rw [MCChildren.sumVisits, MCChildren.sumVisits, hnp]
        omega
  | k + 1, .unexpanded mv rest =>
    rw [searchCycleChildren] at h
    cases hcall : searchCycleChildren o k rest with
    | error e =>
      simp only [hcall] at h
      exact Except.noConfusion h
    | ok r =>
      obtain ⟨rest2, w2, o3⟩ := r
      simp only [hcall, Except.ok.injEq, Prod.mk.injEq] at h
      obtain ⟨h1, h2, h3⟩ := h
      subst h1
      subst h2
      subst h3
      obtain ⟨hr2, hsum⟩ := searchCycleChildren_ok _ _ _ _ _ _ hcall hok
      exact ⟨hr2, by rw [MCChildren.sumVisits, MCChildren.sumVisits, hsum]⟩
  | k + 1, .expanded mv c rest =>
    rw [childrenOkB, Bool.and_eq_true] at hok
    rw [searchCycleChildren] at h
    cases hcall : searchCycleChildren o k rest with
    | error e =>
      simp only [hcall] at h
      exact Except.noConfusion h
    | ok r =>
      obtain ⟨rest2, w2, o3⟩ := r
      simp only [hcall, Except.ok.injEq, Prod.mk.injEq] at h
      obtain ⟨h1, h2, h3⟩ := h
      subst h1
      subst h2
      subst h3
      obtain ⟨hr2, hsum⟩ := searchCycleChildren_ok _ _ _ _ _ _ hcall hok.2
      constructor
      · rw [childrenOkB, Bool.and_eq_true]
        exact ⟨hok.1, hr2⟩
      · rw [MCChildren.sumVisits, MCChildren.sumVisits, hsum]
        omega
end


theorem searchCycle_treeOk (o : List Nat) (t : MonteCarloNode) (t2 : MonteCarloNode)
    (w : GameOutcome) (o2 : List Nat) (h : searchCycle o t = .ok (t2, w, o2))
    (hok : treeOkB t = true) : treeOkB t2 = true := by
  match t with
  | .mk p st np nw cs =>
    rw [treeOkB, Bool.and_eq_true, decide_eq_true_eq] at hok
    obtain ⟨hw, hcs⟩ := hok
    rw [searchCycle] at h
    by_cases hfe : (cs.fullyExpanded && !cs.isNilB) = true
    · rw [if_pos hfe] at h
      cases hcall : searchCycleChildren o.tail (o.headD 0 % cs.size) cs with
      | error e =>
        simp only [hcall] at h
        exact Except.noConfusion h
      | ok r =>
        obtain ⟨cs2, w2, o3⟩ := r
        simp only [hcall, Except.ok.injEq, Prod.mk.injEq] at h
        obtain ⟨h1, h2, h3⟩ := h
        subst h1
        subst h2
        subst h3
        obtain ⟨hcs2, _⟩ := searchCycleChildren_ok _ _ _ _ _ _ hcall hcs
        have hwi := winInc_le_one st w2
        rw [treeOkB, Bool.and_eq_true, decide_eq_true_eq]
        exact ⟨by omega, hcs2⟩
    · rw [if_neg hfe] at h
      by_cases hex : (!cs.isNilB && checkWinWholeBoard st == GameOutcome.none) = true
      · rw [if_pos hex] at h
        cases hu : cs.getUnexpanded (o.headD 0 % cs.countUnexpanded) with
        | none =>
          simp only [hu] at h
          exact Except.noConfusion h
        | some play1 =>
          cases hdm : doMove st play1 with
          | error e =>
            simp only [hu, hdm] at h
            exact Except.noConfusion h
          | ok childSt =>
            cases hsim : simulate 81 o.tail childSt with
            | error e =>
              simp only [hu, hdm, hsim] at h
              exact Except.noConfusion h
            | ok r =>
              obtain ⟨w2, o3⟩ := r
              simp only [hu, hdm, hsim, Except.ok.injEq, Prod.mk.injEq] at h
              obtain ⟨h1, h2, h3⟩ := h
              subst h1
              subst h2
              subst h3
              have hwi := winInc_le_one st w2
              have hchildOk : nodeOkB (.mk (some play1) childSt 1 (winInc childSt w2)
                  (unexpandedChildren (legalMoves childSt))) = true := by
                rw [nodeOkB, Bool.and_eq_true, Bool.and_eq_true, decide_eq_true_eq,
                  decide_eq_true_eq]
                refine ⟨⟨winInc_le_one childSt w2, ?_⟩, childrenOkB_unexpanded _⟩
                rw [sumVisits_unexpanded]
              rw [treeOkB, Bool.and_eq_true, decide_eq_true_eq]
              exact ⟨by omega, childrenOkB_expandAt _ _ _ hcs hchildOk⟩
      · rw [if_neg hex] at h
        simp only [Except.ok.injEq, Prod.mk.injEq] at h
        obtain ⟨h1, h2, h3⟩ := h
        subst h1
        subst h2
        subst h3
        have hwi := winInc_le_one st (checkWinWholeBoard st)
        rw [treeOkB, Bool.and_eq_true, decide_eq_true_eq]
        exact ⟨by omega, hcs⟩

theorem runSearchN_treeOk (k : Nat) : ∀ (o : List Nat) (t t2 : MonteCarloNode),
    runSearchN k o t = .ok t2 → treeOkB t = true → treeOkB t2 = true := by
  induction k with
  | zero =>
    intro o t t2 h ht
    rw [runSearchN] at h
    cases h
    exact ht
  | succ k ih =>
    intro o t t2 h ht
    rw [runSearchN] at h
    cases hcall : searchCycle o t with
    | error e =>
      simp only [hcall] at h
      exact Except.noConfusion h
    | ok r =>
      obtain ⟨t3, w3, o3⟩ := r
      simp only [hcall] at h
      exact ih _ _ _ h (searchCycle_treeOk _ _ _ _ _ hcall ht)

/-!  The claims. -/

theorem undoMove_moves (s : GameState) (m : Move) :
    (undoMove s m).moves = s.moves.dropLast := by
  unfold undoMove
  split <;> rfl

/-- The move a player makes at the global coordinate (4, 4), the center
cell of the center subgrid, as `legalMoves` generates it on the initial
board. -/
def centerMove : Move :=
  { coordinate := (4, 4), player := .X, currentSubgrid := (1, 1) }

/-- Doing and immediately undoing `centerMove` from the initial state. -/
def centerRoundTrip : GameState :=
  undoMove (applyMoveState initialGameState centerMove) centerMove

/-- C1: a do/undo round trip of a legal move from the initial state (where
`activeSubgrid` is the sentinel any) restores the occupancy bitboards, the
player to move, the completion flag and the history, but it sets
`activeSubgrid` to the subgrid of the move itself, not back to the
sentinel: the `currentSubgrid` field recorded in the move is the subgrid
containing the move, which cannot represent the prior sentinel, so undo
does not restore the pre-move active subgrid. -/
theorem undo_does_not_restore_any_sentinel :
    centerMove ∈ legalMoves initialGameState ∧
    doMove initialGameState centerMove =
      Except.ok (applyMoveState initialGameState centerMove) ∧
    initialGameState.activeSubgrid = ActiveSubgrid.any ∧
    centerRoundTrip.aSubgridBitboard = initialGameState.aSubgridBitboard ∧
    centerRoundTrip.bSubgridBitboard = initialGameState.bSubgridBitboard ∧
    centerRoundTrip.playerToMove = initialGameState.playerToMove ∧
    centerRoundTrip.complete = initialGameState.complete ∧
    centerRoundTrip.moves = initialGameState.moves ∧
    centerRoundTrip.activeSubgrid = ActiveSubgrid.sub (1, 1) ∧
    centerRoundTrip.activeSubgrid ≠ initialGameState.activeSubgrid := by
  refine ⟨by decide, rfl, rfl, ?_⟩
  decide

/-- C2 counterexample: calling `undoMove` on the initial state, whose move
history is empty, raises no error at all: it returns a state, and not even
an unchanged one (the active subgrid is silently mutated). -/
theorem undo_empty_history_no_error :
    initialGameState.moves = [] ∧
    undoMove initialGameState centerMove =
      { initialGameState with activeSubgrid := ActiveSubgrid.sub (1, 1) } ∧
    undoMove initialGameState centerMove ≠ initialGameState := by
  decide

/-- C2 amended: on a state with empty history, `undoMove` does not fail
(no IllegalUndo exists in the engine): it silently applies the undo
mutations, leaving the history empty and setting the active subgrid to
the `currentSubgrid` of the move, the player to move to the player of the
move, and the completion flag to false. -/
theorem undo_empty_history_mutates (s : GameState) (m : Move) (h : s.moves = []) :
    (undoMove s m).moves = [] ∧
    (undoMove s m).activeSubgrid = ActiveSubgrid.sub m.currentSubgrid ∧
    (undoMove s m).playerToMove = m.player ∧
    (undoMove s m).complete = false := by
  refine ⟨?_, rfl, rfl, rfl⟩
  rw [undoMove_moves, h]
  rfl

theorem undo_empty_history_mutates_witness :
    (undoMove initialGameState centerMove).moves = [] ∧
    (undoMove initialGameState centerMove).activeSubgrid =
      ActiveSubgrid.sub centerMove.currentSubgrid ∧
    (undoMove initialGameState centerMove).playerToMove = centerMove.player ∧
    (undoMove initialGameState centerMove).complete = false :=
  undo_empty_history_mutates initialGameState centerMove rfl

/-- The root node produced by one completed search cycle from a fresh root
at the initial state (the oracle list is empty, so every choice falls on
the first alternative). -/
def searchedInitialRoot : MonteCarloNode :=
  match runSearchN 1 [] (makeNode initialGameState) with
  | .ok t => t
  | .error _ => makeNode initialGameState

/-- C3: after one completed search cycle from a fresh root at the initial
state, the root has an expanded child with one visit (the maximum visit
count over expanded children is 1) and eighty unexpanded children; the
claim requires `bestPlay` to succeed and return the most visited child,
but the source calls `childNode` before its zero-visit skip, so `bestPlay`
throws the Child-not-expanded error on the first unexpanded entry. -/
theorem best_play_fails_despite_expanded_child :
    runSearchN 1 [] (makeNode initialGameState) = Except.ok searchedInitialRoot ∧
    searchedInitialRoot.children.maxVisits = 1 ∧
    searchedInitialRoot.children.countUnexpanded = 80 ∧
    bestPlay searchedInitialRoot = Except.error "Child not expanded" :=
  ⟨rfl, rfl, rfl, rfl⟩

/-- C4 counterexample: one completed search cycle from a fresh root at the
initial state yields a non-leaf root with one visit whose most visited
child also has one visit, so the root violates the claimed bound
visits at least 1 + most-visited-child visits. -/
theorem run_search_root_visit_deficit :
    runSearchN 1 [] (makeNode initialGameState) = Except.ok searchedInitialRoot ∧
    searchedInitialRoot.children.isNilB = false ∧
    searchedInitialRoot.n_plays = 1 ∧
    searchedInitialRoot.children.maxVisits = 1 ∧
    ¬(searchedInitialRoot.children.maxVisits + 1 ≤ searchedInitialRoot.n_plays) := by
  refine ⟨rfl, rfl, rfl, rfl, ?_⟩
  rw [show searchedInitialRoot.children.maxVisits = 1 from rfl,
    show searchedInitialRoot.n_plays = 1 from rfl]
  omega

/-- C4 amended: after any completed `runSearch` call (any finite number of
search cycles from a fresh root, under any oracle for the random and UCB1
choices), every node of the tree satisfies wins at most visits, and every
non-leaf node other than the root has visits at least 1 + the visits of
its most-visited child; the root itself only satisfies the wins bound
(its visits equal the number of completed cycles, the plain sum of its
children visit counts). -/
theorem run_search_statistics_invariant (k : Nat) (o : List Nat) (g : GameState)
    (t : MonteCarloNode) (h : runSearchN k o (makeNode g) = Except.ok t) :
    treeClaimB t = true :=
  treeOkB_claim t (runSearchN_treeOk k o (makeNode g) t h (makeNode_treeOk g))

theorem run_search_statistics_invariant_witness : treeClaimB searchedInitialRoot = true :=
  run_search_statistics_invariant 1 [] initialGameState searchedInitialRoot rfl

/-- C5: on every reachable state, the legal move list is empty exactly
when the completion flag is set, and the flag is set exactly when the
computed whole-board outcome is not in progress. -/
theorem legal_moves_empty_iff_complete (s : GameState) (h : Reachable s) :
    (legalMoves s = [] ↔ s.complete = true) ∧
    (s.complete = true ↔ checkWinWholeBoard s ≠ GameOutcome.none) := by
  obtain ⟨_, _, hcomp, _⟩ := reachable_stateInv h
  constructor
  · constructor
    · intro hnil
      by_contra hcf
      have hc : s.complete = false := by
        revert hcf
        cases s.complete <;> simp
      exact legalMoves_ne_nil (reachable_stateInv h) hc hnil
    · intro hc
      unfold legalMoves
      rw [hc]
      simp
  · rw [hcomp]
    exact bne_iff_ne

theorem legal_moves_empty_iff_complete_witness :
    (legalMoves initialGameState = [] ↔ initialGameState.complete = true) ∧
    (initialGameState.complete = true ↔
      checkWinWholeBoard initialGameState ≠ GameOutcome.none) :=
  legal_moves_empty_iff_complete initialGameState Reachable.init

/-- C6: `doMove` rejects a move whose target cell is occupied with the
occupied-cell error carrying the occupant, rejects a move into the wrong
forced subgrid with the wrong-subgrid error, leaves the state untouched
and never fires the move hook in either error case, and fires the hook
exactly once on every accepted move. -/
theorem do_move_checks_and_hook (s : GameState) (m : Move) :
    (∀ t, getTile s m.coordinate = some t →
      doMoveMethod s m = (s, some (MoveError.occupiedCell t), [])) ∧
    (getTile s m.coordinate = Option.none →
      activeMismatch s.activeSubgrid (m.coordinate.1 / 3, m.coordinate.2 / 3) = true →
      doMoveMethod s m = (s, some MoveError.wrongSubgrid, [])) ∧
    (getTile s m.coordinate = Option.none →
      activeMismatch s.activeSubgrid (m.coordinate.1 / 3, m.coordinate.2 / 3) = false →
      doMoveMethod s m = (applyMoveState s m, Option.none, [m])) := by
  refine ⟨?_, ?_, ?_⟩
  · intro t ht
    unfold doMoveMethod doMove
    rw [ht]
  · intro ht ha
    unfold doMoveMethod doMove
    rw [ht, if_pos ha]
  · intro ht ha
    unfold doMoveMethod
    rw [doMove_eq_ok ht ha]

theorem do_move_checks_and_hook_witness :
    doMoveMethod initialGameState centerMove =
      (applyMoveState initialGameState centerMove, Option.none, [centerMove]) :=
  (do_move_checks_and_hook initialGameState centerMove).2.2 rfl rfl

/-- C7: the whole-board outcome computed over the meta bitboards equals
the specification description: the winning triple test on the 3x3
meta-board of subgrid outcomes with drawn subgrids neutral, then drawn
exactly when there is no meta winner and every subgrid outcome is
non-in-progress, and in progress otherwise. -/
theorem board_outcome_matches_spec (s : GameState) :
    checkWinWholeBoard s = specBoardOutcome s :=
  checkWinWholeBoard_eq_spec s

/-- Stated from the claim words: exchange the player labels in an
outcome, fixing drawn and in-progress. -/
def swapOutcome : GameOutcome → GameOutcome
  | .X => .O
  | .O => .X
  | .draw => .draw
  | .none => .none

/-- C8 counterexample: on the bitboard pair 448 and 7 both masks are
winning, and the subgrid outcome of the swapped pair is X, not the
label-swap O of the outcome of the original pair: the symmetry law fails
on arbitrary 9-bit pairs. -/
theorem grid_result_swap_counterexample :
    isBitboardWinning 448 = true ∧ isBitboardWinning 7 = true ∧
    bitboardGridResult 7 448 ≠ swapOutcome (bitboardGridResult 448 7) := by
  decide

/-- C8 amended: for every pair of bitboards of which at most one is
winning (as holds for every subgrid reached through legal play, where a
won subgrid accepts no further moves), the subgrid outcome function is
symmetric: evaluating on the swapped pair gives the original outcome with
the player labels exchanged. -/
theorem grid_result_swap (a b : Nat)
    (h : ¬(isBitboardWinning a = true ∧ isBitboardWinning b = true)) :
    bitboardGridResult b a = swapOutcome (bitboardGridResult a b) := by
  unfold bitboardGridResult
  cases ha : isBitboardWinning a <;> cases hb : isBitboardWinning b
  · rw [Nat.lor_comm b a]
    by_cases hd : (a ||| b == 511) = true
    · simp [hd, swapOutcome]
    · simp [hd, swapOutcome]
  · simp [swapOutcome]
  · simp [swapOutcome]
  · exact absurd ⟨ha, hb⟩ h

theorem grid_result_swap_witness :
    bitboardGridResult 0 7 = swapOutcome (bitboardGridResult 7 0) :=
  grid_result_swap 7 0 (by decide)

/-- C9: every move the move generator returns satisfies every
precondition of `doMove`: its target cell is empty, its subgrid does not
mismatch the active constraint, its player field is the player to move,
and `doMove` accepts it without reaching an error branch. -/
theorem legal_moves_satisfy_do_move (s : GameState) (m : Move) (h : m ∈ legalMoves s) :
    getTile s m.coordinate = Option.none ∧
    activeMismatch s.activeSubgrid (m.coordinate.1 / 3, m.coordinate.2 / 3) = false ∧
    m.player = s.playerToMove ∧
    doMove s m = Except.ok (applyMoveState s m) :=
  legalMoves_sound h

theorem legal_moves_satisfy_do_move_witness :
    getTile initialGameState centerMove.coordinate = Option.none ∧
    activeMismatch initialGameState.activeSubgrid
      (centerMove.coordinate.1 / 3, centerMove.coordinate.2 / 3) = false ∧
    centerMove.player = initialGameState.playerToMove ∧
    doMove initialGameState centerMove =
      Except.ok (applyMoveState initialGameState centerMove) :=
  legal_moves_satisfy_do_move initialGameState centerMove (by decide)

/-- C10: `doMove` never consults the completion flag: on any completed
state, a move with an empty target cell and no subgrid mismatch is
accepted and mutates the state (its history grows), while the move
generator returns the empty list on that same state, so finished games
are protected only through `legalMoves`. -/
theorem do_move_ignores_complete (s : GameState) (m : Move)
    (hc : s.complete = true)
    (ht : getTile s m.coordinate = Option.none)
    (ha : activeMismatch s.activeSubgrid (m.coordinate.1 / 3, m.coordinate.2 / 3) = false) :
    legalMoves s = [] ∧
    doMove s m = Except.ok (applyMoveState s m) ∧
    (applyMoveState s m).moves = s.moves ++ [m] := by
  refine ⟨?_, doMove_eq_ok ht ha, applyMoveState_moves s m⟩
  unfold legalMoves
  rw [hc]
  rfl

theorem do_move_ignores_complete_witness :
    legalMoves { initialGameState with complete := true } = [] ∧
    doMove { initialGameState with complete := true } centerMove =
      Except.ok (applyMoveState { initialGameState with complete := true } centerMove) ∧
    (applyMoveState { initialGameState with complete := true } centerMove).moves =
      { initialGameState with complete := true }.moves ++ [centerMove] :=
  do_move_ignores_complete { initialGameState with complete := true } centerMove rfl
    (by decide) rfl

end UltimateTTT
